import Mathlib

/-!
Verification of the storage engine and query executor of the
codecrafters-sqlite-rust repository (a read-only SQLite file reader).

The Rust source is embedded shallowly: records, cells and B-tree pages
become inductive types, the decoding and traversal functions become
executable Lean functions, and machine integers become `Nat`/`Int` with
explicit `% 2 ^ 64` where the Rust code can wrap.  Fallible Rust code
(`Result`) returns `Except`/`Option`; a Rust `panic!`/`unimplemented!` is a
distinct `.panic` outcome, kept separate from typed errors.

Pages are identified with the subtree they root: the page cache
(`Db::page`) resolves a page number to an immutable buffer, and a
well-formed B-tree walk only follows child pointers downward (spec §9), so
a descent through page numbers is a descent through subtrees.
-/

namespace CCS

/-- Typed column values decoded from a record: `enum RecordValue` in
src/src/db/cell.rs.  A double (`Float(f64)`) is kept as its raw big-endian
bit pattern (a natural number below `2 ^ 64`); the repository never
computes with the float, it only stores and prints it. -/
inductive RecordValue where
  | primaryKey (rid : Nat)
  | null
  | int (n : Int)
  | floatBits (bits : Nat)
  | blob (bytes : List Nat)
  | text (s : String)
deriving DecidableEq

/-- `impl PartialEq<&str> for RecordValue` (src/src/db/cell.rs:246-253):
only `Text` compares equal to a string literal, bytewise; every other
variant never equals a string. -/
def rvEqStr : RecordValue → String → Bool
  | .text t, s => t == s
  | _, _ => false

/-- A table-leaf cell `Cell::LeafTable { rowid, payload }`
(src/src/db/cell.rs:12) with its record already decoded into column
values. -/
structure LeafCell where
  rowid : Nat
  record : List RecordValue
deriving DecidableEq

/-- `Cell::column` (src/src/db/cell.rs:25-31) on a table-leaf cell:
positional access into the decoded record. -/
def LeafCell.column (c : LeafCell) (num : Nat) : Option RecordValue :=
  c.record.get? num

mutual
/-- A table B-tree (rowid-keyed).  A leaf page holds `LeafTable` cells; an
interior page holds `InteriorTable` cells `(left_child, rowid)` in cell
order plus the `right_most_pointer` child (spec §3).  Child page numbers
are replaced by the subtrees they root. -/
inductive TableBtree where
  | leaf : List LeafCell → TableBtree
  | interior : TBCells → TableBtree
/-- The cell array of an interior table page: each `cons` is a cell, a
child subtree with its `rowid` key, and the terminal `last` holds the
page's `right_most_pointer` child. -/
inductive TBCells where
  | last : TableBtree → TBCells
  | cons : TableBtree → Nat → TBCells → TBCells
end

mutual
/-- In-order list of the leaf cells of a table B-tree: a leaf contributes
its cells in cell order, an interior page contributes the leaf cells of
each `left_child` in cell order followed by those of the right-most
child. -/
def leafCellsT : TableBtree → List LeafCell
  | .leaf cs => cs
  | .interior cells => leafCellsC cells
/-- Leaf cells under an interior cell array followed by the right-most
child. -/
def leafCellsC : TBCells → List LeafCell
  | .last rm => leafCellsT rm
  | .cons c _ rest => leafCellsT c ++ leafCellsC rest
end

/-- The in-order rowids of a table B-tree. -/
def rowidsT (t : TableBtree) : List Nat :=
  (leafCellsT t).map LeafCell.rowid

mutual
/-- Modelled from the spec: the buffer-based `Page::btree_scan` that
`TableRows::next` (src/src/db/table.rs:195-204) calls is not among the
provided sources; spec §4.D defines it.  On an interior table page, walk
the cells in order and descend into the `left_child` of the first cell
with `rowid ≥ target`, or into `right_most_child` if there is none; on a
leaf page, return the first cell with `rowid ≥ target`, or nothing.  The
`while let BtreeSearch::Pointer(p) = search` loop of `TableRows::next` is
the recursion from child to child. -/
def btreeScan : TableBtree → Nat → Option LeafCell
  | .leaf cs, target => cs.find? (fun c => decide (target ≤ c.rowid))
  | .interior cells, target => btreeScanC cells target
/-- The interior-page cell walk of `btree_scan` (spec §4.D): descend into
the first cell whose key is at least the target, else into the right-most
child. -/
def btreeScanC : TBCells → Nat → Option LeafCell
  | .last rm, target => btreeScan rm target
  | .cons c k rest, target =>
      if target ≤ k then btreeScan c target else btreeScanC rest target
end

/-- One step of the scan iterator `TableRows::next`
(src/src/db/table.rs:190-216): take the pending target rowid, descend from
the root, and yield the found leaf cell provided its rowid is at least the
target (the iterator then continues from the yielded rowid plus one). -/
def tableRowsNext (root : TableBtree) (target : Nat) : Option LeafCell :=
  match btreeScan root target with
  | some cell => if target ≤ cell.rowid then some cell else none
  | none => none

/-- The full-scan iterator unrolled: start at target 0 (`RowId::MIN`),
after each yielded cell re-descend with target `rowid + 1`
(src/src/db/table.rs:190-216).  `fuel` bounds the number of yields. -/
def scanGo (root : TableBtree) (target fuel : Nat) : List LeafCell :=
  match fuel with
  | 0 => []
  | fuel + 1 =>
    match tableRowsNext root target with
    | some c => c :: scanGo root (c.rowid + 1) fuel
    | none => []

/-- The rows yielded by a full table scan (`Table::rows(None)` iterated to
exhaustion); one leaf cell per yield, so the number of leaf cells is
enough fuel. -/
def tableScan (root : TableBtree) : List LeafCell :=
  scanGo root 0 (leafCellsT root).length

/-- `Table::get_row` (src/src/db/table.rs:40-47): run one scan step with
the target rowid and keep the cell only if its rowid is exactly the
target. -/
def get_row (root : TableBtree) (rid : Nat) : Option LeafCell :=
  match tableRowsNext root rid with
  | some row => if row.rowid = rid then some row else none
  | none => none

/-- Strictly ascending test on a list of naturals. -/
def chainLt : List Nat → Bool
  | [] => true
  | [_] => true
  | a :: b :: rest => decide (a < b) && chainLt (b :: rest)

mutual
/-- Interior-key well-formedness, following spec §3: every rowid under
`left_child(i)` is at most `cell(i).rowid`, and in the standard SQLite
B-tree order the key is realised as the largest rowid of its left subtree
(so each left subtree holds at least one leaf cell). -/
def keysOK : TableBtree → Bool
  | .leaf _ => true
  | .interior cells => keysOKC cells
/-- Key well-formedness of an interior cell array. -/
def keysOKC : TBCells → Bool
  | .last rm => keysOK rm
  | .cons c k rest =>
      keysOK c && decide ((rowidsT c).getLast? = some k) && keysOKC rest
end

/-- Well-formed table B-tree (spec §3 invariants): in-order rowids
strictly increase, every rowid is at least 1 (rowid 0 is never present,
spec §4.D), and interior keys are realised maxima of their left
subtrees. -/
def WFtable (t : TableBtree) : Bool :=
  chainLt (rowidsT t) && (rowidsT t).all (fun r => decide (1 ≤ r)) && keysOK t

theorem chainLt_iff_chain' (l : List Nat) :
    chainLt l = true ↔ List.Chain' (· < ·) l := by
  induction l with
  | nil => simp [chainLt]
  | cons a rest ih =>
    cases rest with
    | nil => simp [chainLt]
    | cons b rest' =>
      simp [chainLt, List.chain'_cons] at ih ⊢
      tauto

theorem find?_eq_head?_filter {α : Type} (p : α → Bool) (l : List α) :
    l.find? p = (l.filter p).head? := by
  induction l with
  | nil => rfl
  | cons x xs ih =>
    by_cases h : p x
    · rw [List.find?_cons_of_pos _ h, List.filter_cons_of_pos h, List.head?_cons]
    · rw [List.find?_cons_of_neg _ h, List.filter_cons_of_neg h, ih]

theorem le_getLast_of_pairwise {l : List Nat} {k : Nat}
    (h : List.Pairwise (· < ·) l) (hk : l.getLast? = some k) :
    ∀ x ∈ l, x ≤ k := by
  induction l with
  | nil => simp
  | cons a rest ih =>
    intro x hx
    cases rest with
    | nil =>
      simp at hk hx
      omega
    | cons b rest' =>
      rw [List.getLast?_cons_cons] at hk
      rcases List.mem_cons.1 hx with rfl | hx'
      · have hkm : k ∈ b :: rest' := List.mem_of_getLast?_eq_some hk
        have := (List.pairwise_cons.1 h).1 k hkm
        omega
      · exact ih (List.pairwise_cons.1 h).2 hk x hx'

mutual
theorem btreeScan_eq_find : ∀ (t : TableBtree) (target : Nat),
    List.Chain' (· < ·) (rowidsT t) → keysOK t = true →
    btreeScan t target
      = (leafCellsT t).find? (fun c => decide (target ≤ c.rowid))
  | .leaf cs, _, _, _ => by
      simp [btreeScan, leafCellsT]
  | .interior cells, target, h1, h2 => by
      rw [keysOK] at h2
      rw [rowidsT, leafCellsT] at h1
      rw [btreeScan, leafCellsT]
      exact btreeScanC_eq_find cells target h1 h2
theorem btreeScanC_eq_find : ∀ (cells : TBCells) (target : Nat),
    List.Chain' (· < ·) ((leafCellsC cells).map LeafCell.rowid) →
    keysOKC cells = true →
    btreeScanC cells target
      = (leafCellsC cells).find? (fun c => decide (target ≤ c.rowid))
  | .last rm, target, h1, h2 => by
      rw [btreeScanC, leafCellsC]
      rw [leafCellsC] at h1
      rw [keysOKC] at h2
      exact btreeScan_eq_find rm target h1 h2
  | .cons c k rest, target, h1, h2 => by
      rw [keysOKC, Bool.and_eq_true, Bool.and_eq_true, decide_eq_true_eq] at h2
      obtain ⟨⟨hkc, hlast⟩, hrest⟩ := h2
      rw [leafCellsC, List.map_append, List.chain'_append] at h1
      obtain ⟨hA, hB, _⟩ := h1
      rw [btreeScanC, leafCellsC, List.find?_append]
      by_cases ht : target ≤ k
      · rw [if_pos ht]
        have hkmem : k ∈ rowidsT c := List.mem_of_getLast?_eq_some hlast
        obtain ⟨cell, hcm, hcr⟩ := List.mem_map.1 hkmem
        have hsome : ((leafCellsT c).find?
            (fun x => decide (target ≤ x.rowid))).isSome := by
          rw [List.find?_isSome]
          exact ⟨cell, hcm, by simp [hcr]; omega⟩
        obtain ⟨y, hy⟩ := Option.isSome_iff_exists.1 hsome
        rw [btreeScan_eq_find c target hA hkc, hy, Option.or_some]
      · rw [if_neg ht]
        have hnone : ((leafCellsT c).find?
            (fun x => decide (target ≤ x.rowid))) = none := by
          rw [List.find?_eq_none]
          intro x hx
          have hxle : x.rowid ≤ k :=
            le_getLast_of_pairwise (List.chain'_iff_pairwise.1 hA) hlast _
              (List.mem_map_of_mem _ hx)
          simp
          omega
        rw [hnone, Option.none_or]
        exact btreeScanC_eq_find rest target hB hrest
end

theorem tableRowsNext_eq (root : TableBtree) (target : Nat)
    (h1 : List.Chain' (· < ·) (rowidsT root)) (h2 : keysOK root = true) :
    tableRowsNext root target
      = ((leafCellsT root).filter (fun c => decide (target ≤ c.rowid))).head? := by
  unfold tableRowsNext
  rw [btreeScan_eq_find root target h1 h2, find?_eq_head?_filter]
  cases hfl : (leafCellsT root).filter (fun c => decide (target ≤ c.rowid)) with
  | nil => rfl
  | cons y ys =>
    have hy : y ∈ (leafCellsT root).filter (fun c => decide (target ≤ c.rowid)) := by
      rw [hfl]; exact List.mem_cons_self y ys
    have := (List.mem_filter.1 hy).2
    simp at this
    simp [this]

theorem filter_ge_succ {L : List LeafCell} {t : Nat} {c : LeafCell} {cs : List LeafCell}
    (hs : List.Chain' (· < ·) (L.map LeafCell.rowid))
    (hf : L.filter (fun x => decide (t ≤ x.rowid)) = c :: cs) :
    L.filter (fun x => decide (c.rowid + 1 ≤ x.rowid)) = cs := by
  induction L generalizing cs with
  | nil => simp at hf
  | cons x xs ih =>
    have hpw : List.Pairwise (· < ·) ((x :: xs).map LeafCell.rowid) :=
      List.chain'_iff_pairwise.1 hs
    have hhead : ∀ y ∈ xs, x.rowid < y.rowid := by
      intro y hy
      exact (List.pairwise_cons.1 hpw).1 _ (List.mem_map_of_mem _ hy)
    by_cases hx : t ≤ x.rowid
    · rw [List.filter_cons_of_pos (by simpa using hx)] at hf
      obtain ⟨rfl, hcs⟩ := List.cons_eq_cons.1 hf
      rw [List.filter_cons_of_neg (by simp)]
      have hall1 : xs.filter (fun y => decide (x.rowid + 1 ≤ y.rowid)) = xs :=
        List.filter_eq_self.2 (fun y hy => by simp; exact hhead y hy)
      have hall2 : xs.filter (fun y => decide (t ≤ y.rowid)) = xs :=
        List.filter_eq_self.2 (fun y hy => by simp; have := hhead y hy; omega)
      rw [hall1, ← hcs, hall2]
    · rw [List.filter_cons_of_neg (by simpa using hx)] at hf
      have hcm : c ∈ xs.filter (fun y => decide (t ≤ y.rowid)) := by
        rw [hf]; exact List.mem_cons_self c cs
      have hct : t ≤ c.rowid := by
        have := (List.mem_filter.1 hcm).2; simpa using this
      rw [List.filter_cons_of_neg (by simp; omega)]
      exact ih (hs.tail) hf

theorem scanGo_eq (root : TableBtree)
    (h1 : List.Chain' (· < ·) (rowidsT root)) (h2 : keysOK root = true) :
    ∀ (fuel target : Nat),
      ((leafCellsT root).filter (fun c => decide (target ≤ c.rowid))).length ≤ fuel →
      scanGo root target fuel
        = (leafCellsT root).filter (fun c => decide (target ≤ c.rowid)) := by
  intro fuel
  induction fuel with
  | zero =>
    intro target hle
    have : (leafCellsT root).filter (fun c => decide (target ≤ c.rowid)) = [] :=
      List.length_eq_zero.1 (Nat.le_zero.1 hle)
    rw [this]; rfl
  | succ n ih =>
    intro target hle
    rw [scanGo, tableRowsNext_eq root target h1 h2]
    cases hfl : (leafCellsT root).filter (fun c => decide (target ≤ c.rowid)) with
    | nil => rfl
    | cons c cs =>
      have hs' : List.Chain' (· < ·) ((leafCellsT root).map LeafCell.rowid) := h1
      have hnext := filter_ge_succ hs' hfl
      have hlen : cs.length ≤ n := by
        rw [hfl] at hle; simpa using hle
      show c :: scanGo root (c.rowid + 1) n = c :: cs
      rw [ih (c.rowid + 1) (by rw [hnext]; exact hlen), hnext]

theorem tableScan_eq (root : TableBtree) (hwf : WFtable root = true) :
    tableScan root = leafCellsT root := by
  rw [WFtable, Bool.and_eq_true, Bool.and_eq_true, chainLt_iff_chain'] at hwf
  obtain ⟨⟨hchain, _⟩, hkeys⟩ := hwf
  have hall : (leafCellsT root).filter (fun c => decide (0 ≤ c.rowid))
      = leafCellsT root :=
    List.filter_eq_self.2 (fun y _ => by simp)
  have := scanGo_eq root hchain hkeys (leafCellsT root).length 0 (by rw [hall])
  rw [tableScan, this, hall]

theorem head?_filter_self {L : List LeafCell} {c : LeafCell}
    (hs : List.Chain' (· < ·) (L.map LeafCell.rowid)) (hm : c ∈ L) :
    (L.filter (fun x => decide (c.rowid ≤ x.rowid))).head? = some c := by
  induction L with
  | nil => simp at hm
  | cons x xs ih =>
    rcases List.mem_cons.1 hm with rfl | hm'
    · rw [List.filter_cons_of_pos (by simp)]
      rfl
    · have hlt : x.rowid < c.rowid :=
        (List.pairwise_cons.1 (List.chain'_iff_pairwise.1 hs)).1 _
          (List.mem_map_of_mem _ hm')
      rw [List.filter_cons_of_neg (by simp; omega)]
      exact ih hs.tail hm'

theorem get_row_of_mem (root : TableBtree)
    (h1 : List.Chain' (· < ·) (rowidsT root)) (h2 : keysOK root = true)
    {c : LeafCell} (hm : c ∈ leafCellsT root) :
    get_row root c.rowid = some c := by
  rw [get_row, tableRowsNext_eq root c.rowid h1 h2, head?_filter_self h1 hm]
  simp

theorem get_row_rowid {root : TableBtree} {r : Nat} {row : LeafCell}
    (h : get_row root r = some row) : row.rowid = r := by
  rw [get_row] at h
  cases htn : tableRowsNext root r with
  | none =>
    rw [htn] at h
    exact Option.noConfusion h
  | some cell =>
    rw [htn] at h
    replace h : (if cell.rowid = r then some cell else none) = some row := h
    by_cases hc : cell.rowid = r
    · rw [if_pos hc] at h
      obtain rfl := Option.some.inj h
      exact hc
    · rw [if_neg hc] at h
      exact Option.noConfusion h

/-- A three-level example table B-tree used as a concrete witness input:
an interior root over two leaves plus a right-most leaf. -/
def exTable : TableBtree :=
  .interior
    (.cons (.leaf [⟨1, [RecordValue.text "a"]⟩, ⟨2, [RecordValue.text "b"]⟩]) 2
      (.cons (.leaf [⟨4, [RecordValue.text "c"]⟩]) 4
        (.last (.leaf [⟨7, [RecordValue.text "d"]⟩]))))

/-- C2: for every well-formed table B-tree, the full-scan iterator
(`TableRows::next` started from rowid 0, re-descending with target
last-yielded-rowid + 1) yields exactly the in-order leaf cells — one row
per cell of the union of the leaf pages — and the yielded rowids are
strictly ascending, hence duplicate-free; it stops once a descent
produces no further leaf cell. -/
theorem claim_C2_full_scan (root : TableBtree) (hwf : WFtable root = true) :
    tableScan root = leafCellsT root ∧
      List.Chain' (· < ·) ((tableScan root).map LeafCell.rowid) := by
  have h := tableScan_eq root hwf
  refine ⟨h, ?_⟩
  rw [h]
  rw [WFtable, Bool.and_eq_true, Bool.and_eq_true, chainLt_iff_chain'] at hwf
  exact hwf.1.1

theorem claim_C2_full_scan_witness :
    WFtable exTable = true ∧ tableScan exTable = leafCellsT exTable :=
  ⟨by decide, (claim_C2_full_scan exTable (by decide)).1⟩

/-- C3: for every well-formed table B-tree, (a) each row yielded by a full
scan is found again by a `Table::get_row` point lookup at its rowid, and
(b) `get_row` returns `some row` only when the row's cell rowid equals
the requested rowid — otherwise it returns `none`. -/
theorem claim_C3_point_lookup (root : TableBtree) (hwf : WFtable root = true) :
    (∀ c ∈ tableScan root, get_row root c.rowid = some c) ∧
      (∀ (r : Nat) (row : LeafCell), get_row root r = some row → row.rowid = r) := by
  have hwf' := hwf
  rw [WFtable, Bool.and_eq_true, Bool.and_eq_true, chainLt_iff_chain'] at hwf'
  constructor
  · intro c hc
    rw [tableScan_eq root hwf] at hc
    exact get_row_of_mem root hwf'.1.1 hwf'.2 hc
  · intro r row h
    exact get_row_rowid h

theorem claim_C3_point_lookup_witness :
    get_row exTable 4 = some ⟨4, [RecordValue.text "c"]⟩ :=
  (claim_C3_point_lookup exTable (by decide)).1 ⟨4, [RecordValue.text "c"]⟩ (by decide)

/-! ### Varints (src/src/db/varint.rs) -/

/-- The loop of `Varint::new` (src/src/db/varint.rs:11-29): take the next
byte's low 7 bits; while the high bit is set, shift the `u64` accumulator
left by 7 (dropping overflowing bits, hence the `% 2 ^ 64`) and add the
next byte's low 7 bits.  `none` is the `read_exact` EOF error.  The loop
has no 9-byte cap and treats every byte — including a ninth — as 7 data
bits plus a continuation bit. -/
def varintLoop : List Nat → Nat → Nat → Option (Nat × Nat)
  | [], _, _ => none
  | b :: rest, acc, cnt =>
    if b < 128 then some (acc * 128 % 2 ^ 64 + b % 128, cnt + 1)
    else varintLoop rest (acc * 128 % 2 ^ 64 + b % 128) (cnt + 1)

/-- `Varint::new` over a byte list: returns `(value, byte_len)` or the EOF
error. -/
def varintNew (bytes : List Nat) : Option (Nat × Nat) :=
  varintLoop bytes 0 0

/-- Big-endian 7-bit groups of `v`: `chunks7 n v` lists
`(v / 128 ^ (n-1)) % 128, …, v % 128`. -/
def chunks7 : Nat → Nat → List Nat
  | 0, _ => []
  | n + 1, v => (v / 128 ^ n) % 128 :: chunks7 n v

/-- Minimal number of 7-bit groups for values below `2 ^ 56`, with the
standard 9-byte form for larger `u64` values. -/
def sqliteVarintLen (v : Nat) : Nat :=
  if v < 2 ^ 7 then 1 else if v < 2 ^ 14 then 2 else if v < 2 ^ 21 then 3
  else if v < 2 ^ 28 then 4 else if v < 2 ^ 35 then 5 else if v < 2 ^ 42 then 6
  else if v < 2 ^ 49 then 7 else if v < 2 ^ 56 then 8 else 9

/-- The standard SQLite varint encoding of `v < 2 ^ 64` (the repository
never encodes, so this follows the claim's reference format): values below
`2 ^ 56` use the minimal 1-8 bytes — the high 7-bit groups with the
continuation bit set, then the lowest 7 bits as final byte; larger values
use 8 continuation bytes holding the top 56 bits followed by one final
byte holding all 8 low bits. -/
def sqliteVarintEncode (v : Nat) : List Nat :=
  if v < 2 ^ 56 then
    (chunks7 (sqliteVarintLen v - 1) (v / 128)).map (fun c => c + 128) ++ [v % 128]
  else (chunks7 8 (v / 256)).map (fun c => c + 128) ++ [v % 256]

/-- One accumulator step of the varint value: shift by 7 bits, add a
group. -/
def vstep (a x : Nat) : Nat := a * 128 + x

theorem vstep_foldl_le (l : List Nat) : ∀ a : Nat, a ≤ l.foldl vstep a := by
  induction l with
  | nil => simp
  | cons x xs ih =>
    intro a
    rw [List.foldl_cons]
    have h1 : a ≤ vstep a x := Nat.le_add_right_of_le (by omega)
    exact le_trans h1 (ih (vstep a x))

theorem varintLoop_chunks :
    ∀ (l : List Nat) (c acc cnt : Nat), (∀ x ∈ l, x < 128) → c < 128 →
      (l ++ [c]).foldl vstep acc < 2 ^ 64 →
      varintLoop (l.map (fun x => x + 128) ++ [c]) acc cnt
        = some ((l ++ [c]).foldl vstep acc, cnt + l.length + 1) := by
  intro l
  induction l with
  | nil =>
    intro c acc cnt _ hc hbound
    simp only [List.nil_append, List.foldl_cons, List.foldl_nil, vstep] at hbound
    simp only [List.map_nil, List.nil_append, varintLoop]
    rw [if_pos hc]
    have hmod : acc * 128 % 2 ^ 64 = acc * 128 := Nat.mod_eq_of_lt (by omega)
    have hcmod : c % 128 = c := Nat.mod_eq_of_lt hc
    rw [hmod, hcmod]
    simp [List.foldl_cons, vstep]
  | cons x xs ih =>
    intro c acc cnt hl hc hbound
    have hx : x < 128 := hl x (List.mem_cons_self x xs)
    have hxs : ∀ y ∈ xs, y < 128 := fun y hy => hl y (List.mem_cons_of_mem x hy)
    have hfold : ((x :: xs) ++ [c]).foldl vstep acc
        = (xs ++ [c]).foldl vstep (vstep acc x) := by
      simp [List.foldl_cons]
    have hbound' : (xs ++ [c]).foldl vstep (vstep acc x) < 2 ^ 64 := hfold ▸ hbound
    have hmod : acc * 128 % 2 ^ 64 = acc * 128 := by
      apply Nat.mod_eq_of_lt
      have h1 : vstep acc x ≤ (xs ++ [c]).foldl vstep (vstep acc x) :=
        vstep_foldl_le _ _
      have h2 : acc * 128 ≤ vstep acc x := Nat.le_add_right _ _
      omega
    have hxmod : (x + 128) % 128 = x := by omega
    rw [List.map_cons, List.cons_append, varintLoop]
    rw [if_neg (by omega), hxmod, hmod]
    have heq := ih c (vstep acc x) (cnt + 1) hxs hc hbound'
    rw [show acc * 128 + x = vstep acc x from rfl, heq, hfold]
    simp only [Option.some.injEq, Prod.mk.injEq, List.length_cons, true_and]
    omega

theorem foldl_chunks7 : ∀ (n v acc : Nat),
    (chunks7 n v).foldl vstep acc = acc * 128 ^ n + v % 128 ^ n := by
  intro n
  induction n with
  | zero => intro v acc; simp [chunks7, Nat.mod_one]
  | succ n ih =>
    intro v acc
    rw [chunks7, List.foldl_cons, ih]
    have hsplit : v % 128 ^ (n + 1) = 128 ^ n * (v / 128 ^ n % 128) + v % 128 ^ n := by
      rw [pow_succ, Nat.mod_mul]
      omega
    unfold vstep
    rw [hsplit]
    ring

theorem chunks7_lt (n v : Nat) : ∀ x ∈ chunks7 n v, x < 128 := by
  induction n generalizing v with
  | zero => simp [chunks7]
  | succ n ih =>
    intro x hx
    rw [chunks7] at hx
    rcases List.mem_cons.1 hx with rfl | hx'
    · exact Nat.mod_lt _ (by norm_num)
    · exact ih v x hx'

theorem chunks7_length (n v : Nat) : (chunks7 n v).length = n := by
  induction n generalizing v with
  | zero => rfl
  | succ n ih => simp [chunks7, ih]

/-- C6 (amended): for every `v < 2 ^ 56`, decoding the standard SQLite
varint encoding of `v` returns exactly `v` with the minimal byte length,
between 1 and 8.  For `v ≥ 2 ^ 56` the original claim fails: `Varint::new`
treats the ninth byte like every other byte — 7 data bits plus a
continuation bit — instead of using all 8 bits, and it has no 9-byte cap
(see the counterexample theorem). -/
theorem claim_C6_varint_roundtrip (v : Nat) (hv : v < 2 ^ 56) :
    varintNew (sqliteVarintEncode v) = some (v, sqliteVarintLen v) ∧
      1 ≤ sqliteVarintLen v ∧ sqliteVarintLen v ≤ 8 := by
  have hlen : 1 ≤ sqliteVarintLen v ∧ sqliteVarintLen v ≤ 8 ∧
      v / 128 < 128 ^ (sqliteVarintLen v - 1) := by
    unfold sqliteVarintLen
    split_ifs <;> norm_num <;> omega
  obtain ⟨h1, h8, hdiv⟩ := hlen
  refine ⟨?_, h1, h8⟩
  rw [varintNew, sqliteVarintEncode, if_pos hv]
  have hchlt := chunks7_lt (sqliteVarintLen v - 1) (v / 128)
  have hcm : v % 128 < 128 := Nat.mod_lt _ (by norm_num)
  have hfold : ((chunks7 (sqliteVarintLen v - 1) (v / 128)) ++ [v % 128]).foldl
      vstep 0 = v := by
    rw [List.foldl_append, foldl_chunks7]
    simp only [List.foldl_cons, List.foldl_nil, vstep]
    rw [Nat.mod_eq_of_lt hdiv]
    omega
  rw [varintLoop_chunks _ _ _ _ hchlt hcm (by rw [hfold]; omega)]
  rw [hfold, chunks7_length]
  simp only [Option.some.injEq, Prod.mk.injEq, true_and]
  omega

theorem claim_C6_varint_roundtrip_witness :
    (300 : Nat) < 2 ^ 56 ∧ varintNew (sqliteVarintEncode 300) = some (300, 2) :=
  ⟨by norm_num, by
    have h := (claim_C6_varint_roundtrip 300 (by norm_num)).1
    simpa using h⟩

/-- C6 counterexample: the claim asserts the round-trip for every
`v < 2 ^ 63` with the 9-byte final byte contributing 8 bits.  At
`v = 2 ^ 56` the standard 9-byte encoding decodes to `2 ^ 55`, not
`2 ^ 56`: `Varint::new` folds the final byte as 7 bits. -/
theorem claim_C6_counterexample :
    (2 ^ 56 : Nat) < 2 ^ 63 ∧
      varintNew (sqliteVarintEncode (2 ^ 56)) = some (2 ^ 55, 9) ∧
      (2 ^ 55 : Nat) ≠ 2 ^ 56 := by
  refine ⟨by norm_num, by decide, by norm_num⟩

/-! ### Records and serial types (src/src/db/cell.rs) -/

/-- Outcome of decoding untrusted bytes: a value plus the remaining input,
a typed error (the `Error` enum of src/src/error.rs, e.g. a `read_exact`
underflow or invalid UTF-8, which a caller receives as `Err`), or a Rust
`panic!` / `unimplemented!` abort — which is not a typed error and never
reaches a caller as a value. -/
inductive DRes (α : Type) where
  | ok : α → List Nat → DRes α
  | err : DRes α
  | panic : DRes α
deriving DecidableEq

/-- `read_exact` over a byte list (src/src/utils.rs `read_n_bytes` and the
fixed-width readers): exactly `n` bytes or an EOF error. -/
def readN (n : Nat) (bs : List Nat) : Option (List Nat × List Nat) :=
  if bs.length < n then none else some (bs.take n, bs.drop n)

/-- `enum SerialType` (src/src/db/cell.rs:135-149). -/
inductive SerialType where
  | null | tc8 | tc16 | tc24 | tc32 | tc48 | tc64 | float | zero | one
  | blob (n : Nat) | text (n : Nat)
deriving DecidableEq

/-- `SerialType::new` (src/src/db/cell.rs:151-168): maps a serial-type
number to its variant; even numbers from 12 are blobs of `(n-12)/2`
bytes, odd numbers from 13 are texts of `(n-13)/2` bytes.  The remaining
numbers — exactly 10 and 11 — fall into the catch-all
`panic!("Invalid serial type")` arm, modelled as `none`. -/
def SerialType.new (num : Nat) : Option SerialType :=
  if num = 0 then some .null
  else if num = 1 then some .tc8
  else if num = 2 then some .tc16
  else if num = 3 then some .tc24
  else if num = 4 then some .tc32
  else if num = 5 then some .tc48
  else if num = 6 then some .tc64
  else if num = 7 then some .float
  else if num = 8 then some .zero
  else if num = 9 then some .one
  else if num % 2 = 0 ∧ 12 ≤ num then some (.blob ((num - 12) / 2))
  else if num % 2 = 1 ∧ 13 ≤ num then some (.text ((num - 13) / 2))
  else none

/-- Big-endian bytes to an unsigned natural. -/
def beNat (bs : List Nat) : Nat := bs.foldl (fun a b => a * 256 + b) 0

/-- Two's-complement reading of a `w`-byte big-endian integer, as
`i8/i16/i32/i64::from_be_bytes` do. -/
def twosComp (w : Nat) (bs : List Nat) : Int :=
  if beNat bs < 2 ^ (8 * w - 1) then (beNat bs : Int)
  else (beNat bs : Int) - 2 ^ (8 * w)

/-- UTF-8 decoding with the validation Rust's `String::from_utf8`
performs: correct continuation bytes, no overlong forms, no surrogates,
nothing above `0x10FFFF`. -/
def utf8Decode : List Nat → Option (List Char)
  | [] => some []
  | b :: rest =>
    if b < 0x80 then (utf8Decode rest).map (fun cs => Char.ofNat b :: cs)
    else if b < 0xC2 then none
    else if b < 0xE0 then
      match rest with
      | b1 :: rest' =>
        if 0x80 ≤ b1 ∧ b1 < 0xC0 then
          (utf8Decode rest').map
            (fun cs => Char.ofNat ((b - 0xC0) * 64 + (b1 - 0x80)) :: cs)
        else none
      | [] => none
    else if b < 0xF0 then
      match rest with
      | b1 :: b2 :: rest' =>
        if ((if b = 0xE0 then 0xA0 else 0x80) ≤ b1 ∧
              b1 ≤ (if b = 0xED then 0x9F else 0xBF)) ∧
            (0x80 ≤ b2 ∧ b2 < 0xC0) then
          (utf8Decode rest').map
            (fun cs =>
              Char.ofNat ((b - 0xE0) * 4096 + (b1 - 0x80) * 64 + (b2 - 0x80)) :: cs)
        else none
      | _ => none
    else if b ≤ 0xF4 then
      match rest with
      | b1 :: b2 :: b3 :: rest' =>
        if ((if b = 0xF0 then 0x90 else 0x80) ≤ b1 ∧
              b1 ≤ (if b = 0xF4 then 0x8F else 0xBF)) ∧
            (0x80 ≤ b2 ∧ b2 < 0xC0) ∧ (0x80 ≤ b3 ∧ b3 < 0xC0) then
          (utf8Decode rest').map
            (fun cs =>
              Char.ofNat ((b - 0xF0) * 262144 + (b1 - 0x80) * 4096 +
                (b2 - 0x80) * 64 + (b3 - 0x80)) :: cs)
        else none
      | _ => none
    else none

/-- `RecordValue::new` (src/src/db/cell.rs:181-231): read a column body
for its serial type.  The 24-bit arm builds `i32::from_be_bytes([0, b0,
b1, b2])`, which never sign-extends; the 48-bit arm reads its 6 body
bytes and then hits `unimplemented!()` — a panic (or the EOF error if
fewer than 6 bytes remain, since `read_6_bytes` runs first). -/
def RecordValue.new (st : SerialType) (bs : List Nat) : DRes RecordValue :=
  match st with
  | .null => .ok .null bs
  | .tc8 =>
    match readN 1 bs with
    | some (b, rest) => .ok (.int (twosComp 1 b)) rest
    | none => .err
  | .tc16 =>
    match readN 2 bs with
    | some (b, rest) => .ok (.int (twosComp 2 b)) rest
    | none => .err
  | .tc24 =>
    match readN 3 bs with
    | some (b, rest) => .ok (.int (beNat b)) rest
    | none => .err
  | .tc32 =>
    match readN 4 bs with
    | some (b, rest) => .ok (.int (twosComp 4 b)) rest
    | none => .err
  | .tc48 =>
    match readN 6 bs with
    | some _ => .panic
    | none => .err
  | .tc64 =>
    match readN 8 bs with
    | some (b, rest) => .ok (.int (twosComp 8 b)) rest
    | none => .err
  | .float =>
    match readN 8 bs with
    | some (b, rest) => .ok (.floatBits (beNat b)) rest
    | none => .err
  | .zero => .ok (.int 0) bs
  | .one => .ok (.int 1) bs
  | .blob n =>
    match readN n bs with
    | some (b, rest) => .ok (.blob b) rest
    | none => .err
  | .text n =>
    match readN n bs with
    | some (b, rest) =>
      match utf8Decode b with
      | some cs => .ok (.text (String.mk cs)) rest
      | none => .err
    | none => .err

/-- The header loop of `Record::new` (src/src/db/cell.rs:110-118): while
fewer than `target` (= the inclusive `header_size`) bytes are consumed,
read one serial-type varint and map it through `SerialType::new`.  `fuel`
only bounds the number of iterations; since every varint consumes at
least one byte, `target` iterations always suffice, so the base case is
the normal loop exit. -/
def readSerials (fuel : Nat) (bs : List Nat) (bytesRead target : Nat) :
    DRes (List SerialType) :=
  match fuel with
  | 0 => .ok [] bs
  | fuel + 1 =>
    if bytesRead < target then
      match varintNew bs with
      | some (v, len) =>
        match SerialType.new v with
        | some st =>
          match readSerials fuel (bs.drop len) (bytesRead + len) target with
          | .ok sts rest => .ok (st :: sts) rest
          | .err => .err
          | .panic => .panic
        | none => .panic
      | none => .err
    else .ok [] bs

/-- The body loop of `Record::new` (src/src/db/cell.rs:120-126): decode a
value for each serial type, in order, from the remaining bytes. -/
def readValues : List SerialType → List Nat → DRes (List RecordValue)
  | [], bs => .ok [] bs
  | st :: sts, bs =>
    match RecordValue.new st bs with
    | .ok v rest =>
      match readValues sts rest with
      | .ok vs rest' => .ok (v :: vs) rest'
      | .err => .err
      | .panic => .panic
    | .err => .err
    | .panic => .panic

/-- `Record::new` (src/src/db/cell.rs:107-128): read the inclusive
`header_size` varint, loop over serial-type varints until `header_size`
bytes of header are consumed, then decode each column body.  `.panic`
marks the `panic!` / `unimplemented!` aborts; `.err` the typed errors. -/
def recordNew (bytes : List Nat) : DRes (List RecordValue) :=
  match varintNew bytes with
  | some (hsize, hlen) =>
    match readSerials hsize (bytes.drop hlen) hlen hsize with
    | .ok sts rest =>
      match readValues sts rest with
      | .ok vs rest' => .ok vs rest'
      | .err => .err
      | .panic => .panic
    | .err => .err
    | .panic => .panic
  | none => .err

/-- `PageType::new` (src/src/db/page.rs:76-98). -/
inductive PageType where
  | interiorIndex | interiorTable | leafIndex | leafTable
deriving DecidableEq

/-- `PageType::new` (src/src/db/page.rs:77-85): the four valid page-type
bytes; any other byte is a typed decode error (`Err`), never a panic. -/
def pageTypeNew (b : Nat) : DRes PageType :=
  if b = 0x02 then .ok .interiorIndex []
  else if b = 0x05 then .ok .interiorTable []
  else if b = 0x0a then .ok .leafIndex []
  else if b = 0x0d then .ok .leafTable []
  else .err

/-- C7 (amended): an unknown page-type byte is a typed error, never a
panic, and decoding a record body never panics for any serial type other
than the unimplemented 48-bit one; but — contrary to the original claim —
a record header naming serial type 10 or 11 hits
`panic!("Invalid serial type")` in `SerialType::new` rather than
returning a typed error (only those two numbers lack an arm), so decoding
is not panic-free on all malformed input. -/
theorem claim_C7_typed_errors :
    (∀ num : Nat, num ≠ 10 → num ≠ 11 → SerialType.new num ≠ none) ∧
      (∀ (st : SerialType) (bs : List Nat), st ≠ SerialType.tc48 →
        RecordValue.new st bs ≠ DRes.panic) ∧
      (∀ b : Nat, pageTypeNew b ≠ DRes.panic) := by
  refine ⟨?_, ?_, ?_⟩
  · intro num h10 h11
    rcases Nat.lt_or_ge num 10 with h | h
    · interval_cases num <;> simp [SerialType.new]
    · have h0 : num ≠ 0 := by omega
      have h1 : num ≠ 1 := by omega
      have h2 : num ≠ 2 := by omega
      have h3 : num ≠ 3 := by omega
      have h4 : num ≠ 4 := by omega
      have h5 : num ≠ 5 := by omega
      have h6 : num ≠ 6 := by omega
      have h7 : num ≠ 7 := by omega
      have h8 : num ≠ 8 := by omega
      have h9 : num ≠ 9 := by omega
      rw [SerialType.new, if_neg h0, if_neg h1, if_neg h2, if_neg h3, if_neg h4,
        if_neg h5, if_neg h6, if_neg h7, if_neg h8, if_neg h9]
      by_cases hp : num % 2 = 0
      · rw [if_pos (And.intro hp (by omega))]
        simp
      · rw [if_neg (fun hc => hp hc.1), if_pos (And.intro (by omega) (by omega))]
        simp
  · intro st bs hst
    cases st with
    | tc48 => exact absurd rfl hst
    | null => simp [RecordValue.new]
    | zero => simp [RecordValue.new]
    | one => simp [RecordValue.new]
    | tc8 => rcases h : readN 1 bs with _ | ⟨b, rest⟩ <;> simp [RecordValue.new, h]
    | tc16 => rcases h : readN 2 bs with _ | ⟨b, rest⟩ <;> simp [RecordValue.new, h]
    | tc24 => rcases h : readN 3 bs with _ | ⟨b, rest⟩ <;> simp [RecordValue.new, h]
    | tc32 => rcases h : readN 4 bs with _ | ⟨b, rest⟩ <;> simp [RecordValue.new, h]
    | tc64 => rcases h : readN 8 bs with _ | ⟨b, rest⟩ <;> simp [RecordValue.new, h]
    | float => rcases h : readN 8 bs with _ | ⟨b, rest⟩ <;> simp [RecordValue.new, h]
    | blob n => rcases h : readN n bs with _ | ⟨b, rest⟩ <;> simp [RecordValue.new, h]
    | text n =>
      rcases h : readN n bs with _ | ⟨b, rest⟩
      · simp [RecordValue.new, h]
      · rcases h2 : utf8Decode b with _ | cs <;> simp [RecordValue.new, h, h2]
  · intro b
    unfold pageTypeNew
    split_ifs <;> simp

theorem claim_C7_typed_errors_witness :
    SerialType.new 7 ≠ none ∧
      RecordValue.new SerialType.float [0, 0, 0, 0, 0, 0, 0, 0] ≠ DRes.panic ∧
      pageTypeNew 77 ≠ DRes.panic :=
  ⟨claim_C7_typed_errors.1 7 (by decide) (by decide),
    claim_C7_typed_errors.2.1 SerialType.float [0, 0, 0, 0, 0, 0, 0, 0] (by decide),
    claim_C7_typed_errors.2.2 77⟩

/-- C7 counterexample: the claim asserts that an invalid serial type
yields a typed decode error and decoding never panics; but the record
`[2, 10]` (header size 2, serial type 10) makes `Record::new` panic in
`SerialType::new`, which is not the typed error the claim requires. -/
theorem claim_C7_counterexample :
    recordNew [2, 10] = DRes.panic ∧
      (DRes.panic : DRes (List RecordValue)) ≠ DRes.err :=
  ⟨by decide, by decide⟩

/-- C8 (amended): decoding a column of serial type 5 (the 48-bit
integer) first reads the 6 body bytes and then aborts via the distinct
`unimplemented!()` panic — it never returns a (silently wrong) value,
but neither does it surface a typed error to the caller; with fewer than
6 bytes remaining the `read_6_bytes` EOF error fires first. -/
theorem claim_C8_tc48_unimplemented (bs : List Nat) :
    RecordValue.new SerialType.tc48 bs
      = if 6 ≤ bs.length then DRes.panic else DRes.err := by
  by_cases h : bs.length < 6
  · have hr : readN 6 bs = none := by simp [readN, h]
    rw [if_neg (by omega)]
    simp [RecordValue.new, hr]
  · have hr : readN 6 bs = some (bs.take 6, bs.drop 6) := by simp [readN, h]
    rw [if_pos (by omega)]
    simp [RecordValue.new, hr]

/-- C8 counterexample: the claim says the 48-bit serial type surfaces a
distinct "unimplemented" error to the caller, not a panic; decoding the
record `[2, 5, 0, 0, 0, 0, 0, 0]` (header size 2, serial type 5, six body
bytes) instead ends in the `unimplemented!()` panic. -/
theorem claim_C8_counterexample :
    recordNew [2, 5, 0, 0, 0, 0, 0, 0] = DRes.panic ∧
      DRes.panic ≠ (DRes.err : DRes (List RecordValue)) :=
  ⟨by decide, by decide⟩

/-! ### Index B-trees (src/src/db/table.rs, spec §4.D) -/

/-- An index entry: the payload record's column 0 (the key, compared as
text per the `PartialEq<&str>` / `PartialOrd<&str>` impls of
`RecordValue`) and column 1 (the rowid), as `Cell::index_payload`
extracts them (src/src/db/cell.rs:47-62).  Non-text keys never compare
equal or ordered against a string literal, so a well-formed index over a
text column stores text keys. -/
structure IdxEntry where
  key : String
  rid : Nat
deriving DecidableEq

mutual
/-- An index B-tree: leaves hold `LeafIndex` entries; interior pages hold
`InteriorIndex` cells — a child subtree plus a full `(key, rowid)` entry
of its own — followed by the `right_most_pointer` child (spec §3, §4.D). -/
inductive IndexBtree where
  | leaf : List IdxEntry → IndexBtree
  | interior : IBCells → IndexBtree
/-- The cell array of an interior index page; `last` is the right-most
child. -/
inductive IBCells where
  | last : IndexBtree → IBCells
  | cons : IndexBtree → IdxEntry → IBCells → IBCells
end

/-! ### Table metadata, projection and the executor
(src/src/db/table.rs, src/src/sql/mod.rs) -/

/-- Lowercasing, as `str::to_lowercase` behaves on ASCII. -/
def toLowerStr (s : String) : String :=
  String.mk (s.data.map Char.toLower)

/-- `\w` of the `COL_DEF` regex (src/src/db/table.rs:286-287): word
characters (ASCII here; the defs the parser produces are ASCII). -/
def isWordChar (c : Char) : Bool :=
  c.isAlphanum || c = '_'

/-- Substring test on character lists, as `str::contains` (case
sensitive). -/
def listContainsSub (pat : List Char) : List Char → Bool
  | [] => decide (pat = [])
  | c :: rest => pat.isPrefixOf (c :: rest) || listContainsSub pat rest

/-- Attempt the `COL_DEF` regex `(\w+|"(\w|\s)+")\s+(\w+)`
(src/src/db/table.rs:286-287) at the head of `cs`: a word, or a
double-quoted run of word/space characters, as the column name (quotes
stripped, as the subsequent `trim_matches('"')` does); then whitespace;
then a word as the declared type.  The character classes are disjoint, so
the greedy match needs no backtracking. -/
def colDefMatchAt (cs : List Char) : Option (String × String) :=
  match cs with
  | [] => none
  | c :: _ =>
    if isWordChar c then
      let name := cs.takeWhile isWordChar
      let rest := cs.dropWhile isWordChar
      let sp := rest.takeWhile Char.isWhitespace
      let rest2 := rest.dropWhile Char.isWhitespace
      let ty := rest2.takeWhile isWordChar
      if sp.isEmpty || ty.isEmpty then none
      else some (String.mk name, String.mk ty)
    else if c = '"' then
      match (cs.drop 1).dropWhile (fun d => isWordChar d || d.isWhitespace) with
      | '"' :: rest1 =>
        let inner := (cs.drop 1).takeWhile (fun d => isWordChar d || d.isWhitespace)
        let sp := rest1.takeWhile Char.isWhitespace
        let rest2 := rest1.dropWhile Char.isWhitespace
        let ty := rest2.takeWhile isWordChar
        if inner.isEmpty || sp.isEmpty || ty.isEmpty then none
        else some (String.mk inner, String.mk ty)
      | _ => none
    else none

/-- Leftmost `COL_DEF` match, as `Regex::captures` finds it: try each
start position left to right. -/
def colDefFind : List Char → Option (String × String)
  | [] => none
  | c :: rest =>
    match colDefMatchAt (c :: rest) with
    | some r => some r
    | none => colDefFind rest

/-- `struct TableColumn` (src/src/db/table.rs:289-294). -/
structure TableColumn where
  type : String
  name : String
  primary_key : Bool
deriving DecidableEq

/-- `TableColumn::new` (src/src/db/table.rs:296-311): regex-extract the
name (quotes stripped) and declared type; `primary_key` is the
CASE-SENSITIVE substring test `def.contains("primary key")` on the raw
def text.  `none` is the `Cannot parse table column` error. -/
def TableColumn.new (d : String) : Option TableColumn :=
  match colDefFind d.data with
  | some (name, ty) =>
    some { type := ty, name := name,
           primary_key := listContainsSub "primary key".data d.data }
  | none => none

/-- `TableColumn::is_rowid` (src/src/db/table.rs:318-320): the declared
type lowercases to `integer` and the column is primary key. -/
def TableColumn.is_rowid (c : TableColumn) : Bool :=
  toLowerStr c.type == "integer" && c.primary_key

/-- `struct TableIndex` (src/src/db/table.rs:323-329): a parsed
`CREATE INDEX` — its name, ordered column list and the root of its
B-tree (the `rootpage` resolved through the page cache). -/
structure TableIndexM where
  name : String
  columns : List String
  root : IndexBtree

/-- The executor-side view of a `Table` (src/src/db/table.rs:15-22): the
root of its B-tree (its `rootpage` resolved through the page cache), the
parsed columns and the parsed indexes. -/
structure TableM where
  root : TableBtree
  columns : List TableColumn
  indexes : List TableIndexM

/-- `Table::primary_key` (src/src/db/table.rs:74-76): the first column
flagged primary key. -/
def primaryKeyCol (cols : List TableColumn) : Option TableColumn :=
  cols.find? (fun c => c.primary_key)

/-- `Table::col_idx` (src/src/db/table.rs:70-72). -/
def col_idx (cols : List TableColumn) (name : String) : Option Nat :=
  cols.findIdx? (fun c => c.name == name)

/-- The positional arm of `TableRow::col`: look the name up in the column
list and read that record column; `Invalid column name` if either step
fails. -/
def rowColPos (tbl : TableM) (cell : LeafCell) (name : String) :
    Except String RecordValue :=
  match col_idx tbl.columns name with
  | some idx =>
    match cell.column idx with
    | some v => .ok v
    | none => .error "Invalid column name"
  | none => .error "Invalid column name"

/-- `TableRow::col` (src/src/db/table.rs:266-279): when the table's first
primary-key column bears the requested name and is a rowid alias, emit
`PrimaryKey(rowid)` (a table-leaf cell always has a rowid); otherwise
read the record column at the name's position. -/
def rowCol (tbl : TableM) (cell : LeafCell) (name : String) :
    Except String RecordValue :=
  match primaryKeyCol tbl.columns with
  | some key =>
    if key.name == name && key.is_rowid then .ok (.primaryKey cell.rowid)
    else rowColPos tbl cell name
  | none => rowColPos tbl cell name

/-- `Condition::Eq` (src/src/sql/mod.rs:61-72): one `col = value`
equality with the literal's quotes already stripped by the parser. -/
structure CondEq where
  col : String
  value : String
deriving DecidableEq

/-- `Conditions::satisfy` (src/src/sql/mod.rs:78-83): every condition's
column must compare equal to its literal (`RecordValue == &str`);
`is_ok_and` makes a column-lookup error count as false. -/
def condsSatisfy (tbl : TableM) (conds : List CondEq) (row : LeafCell) : Bool :=
  conds.all (fun c =>
    match rowCol tbl row c.col with
    | .ok v => rvEqStr v c.value
    | .error _ => false)

/-- `count_rows` (src/src/sql/mod.rs:56-58): some column token lowercases
to `count(*)`. -/
def count_rows (cols : List String) : Bool :=
  cols.any (fun c => toLowerStr c == "count(*)")

/-- The `Display` rendering of `RecordValue`
(src/src/db/cell.rs:233-244).  A double's decimal rendering depends on
Rust's float formatting and is not modelled; floats render as a
placeholder, on which no claim depends. -/
def rvToString : RecordValue → String
  | .primaryKey n => toString n
  | .null => "NULL"
  | .int n => toString n
  | .floatBits _ => "<float>"
  | .blob bs => "[" ++ String.intercalate ", " (bs.map toString) ++ "]"
  | .text t => t

/-- `Sql::execute` (src/src/sql/mod.rs:29-54): scan the table and filter
by the conditions; if any column token lowercases to `count(*)`, the
output is the single row count, else one `|`-joined projection line per
row (columns whose lookup errors are skipped by `filter_map(ok)`). -/
def sqlExecute (tbl : TableM) (columns : List String) (conds : List CondEq) :
    List String :=
  if count_rows columns then
    [toString ((tableScan tbl.root).filter (condsSatisfy tbl conds)).length]
  else
    ((tableScan tbl.root).filter (condsSatisfy tbl conds)).map (fun row =>
      String.intercalate "|"
        (columns.filterMap (fun name =>
          match rowCol tbl row name with
          | .ok v => some (rvToString v)
          | .error _ => none)))

/-- C4: when the column list contains a token equal, case-insensitively,
to `count(*)`, execution produces exactly one output line — the count of
the effective row set (the scan filtered by all equality conditions
conjunctively) — and no projected row lines. -/
theorem claim_C4_count_star (tbl : TableM) (columns : List String)
    (conds : List CondEq) (h : count_rows columns = true) :
    sqlExecute tbl columns conds
      = [toString ((tableScan tbl.root).filter (condsSatisfy tbl conds)).length] ∧
      (sqlExecute tbl columns conds).length = 1 := by
  unfold sqlExecute
  rw [if_pos h]
  exact ⟨rfl, rfl⟩

/-- An example table over `exTable` with a rowid-alias `id` column and a
text `val` column.  The `exTable` leaf records hold a single text
column, so `val` is column 0. -/
def exTableM : TableM :=
  { root := exTable
    columns := [⟨"text", "val", false⟩]
    indexes := [] }

theorem claim_C4_count_star_witness :
    count_rows ["COUNT(*)"] = true ∧ sqlExecute exTableM ["COUNT(*)"] [] = ["4"] :=
  ⟨by decide, by
    rw [(claim_C4_count_star exTableM ["COUNT(*)"] [] (by decide)).1]
    decide⟩

/-- C5 counterexample: the claim's characterisation — `primary_key` true
iff the def's LOWERCASED text contains `primary key` — fails:
`TableColumn::new` runs `def.contains("primary key")` on the raw text,
so the upper-case def `id INTEGER PRIMARY KEY` parses with
`primary_key = false` although its lowercased text contains the phrase;
projecting such a column then yields the record's stored `Null`, not the
rowid. -/
theorem claim_C5_counterexample :
    TableColumn.new "id INTEGER PRIMARY KEY"
        = some ⟨"INTEGER", "id", false⟩ ∧
      listContainsSub "primary key".data
          (toLowerStr "id INTEGER PRIMARY KEY").data = true ∧
      rowCol ⟨exTable, [⟨"INTEGER", "id", false⟩], []⟩ ⟨5, [RecordValue.null]⟩ "id"
        = Except.ok RecordValue.null ∧
      RecordValue.null ≠ RecordValue.primaryKey 5 :=
  ⟨by decide, by decide, rfl, by decide⟩

/-- C5 (amended): `primary_key` is the CASE-SENSITIVE containment of
`primary key` in the def text; and whenever the table's first
primary-key column bears the requested name and is a rowid alias
(declared type lowercasing to `integer`), projecting that column from
any row yields `PrimaryKey` of the cell's rowid — never Null. -/
theorem claim_C5_rowid_alias :
    (∀ (d : String) (c : TableColumn), TableColumn.new d = some c →
        c.primary_key = listContainsSub "primary key".data d.data) ∧
      (∀ (tbl : TableM) (cell : LeafCell) (key : TableColumn),
        primaryKeyCol tbl.columns = some key → key.is_rowid = true →
        rowCol tbl cell key.name = Except.ok (RecordValue.primaryKey cell.rowid)) := by
  constructor
  · intro d c h
    unfold TableColumn.new at h
    cases hf : colDefFind d.data with
    | none => rw [hf] at h; exact Option.noConfusion h
    | some r =>
      rw [hf] at h
      obtain ⟨name, ty⟩ := r
      replace h : some (⟨ty, name, listContainsSub "primary key".data d.data⟩
          : TableColumn) = some c := h
      obtain rfl := Option.some.inj h
      rfl
  · intro tbl cell key hpk hrow
    unfold rowCol
    rw [hpk]
    simp [hrow]

theorem claim_C5_rowid_alias_witness :
    TableColumn.new "id integer primary key"
        = some ⟨"integer", "id", true⟩ ∧
      (⟨"integer", "id", true⟩ : TableColumn).primary_key
        = listContainsSub "primary key".data "id integer primary key".data ∧
      rowCol ⟨exTable, [⟨"integer", "id", true⟩], []⟩ ⟨5, [RecordValue.null]⟩ "id"
        = Except.ok (RecordValue.primaryKey 5) :=
  ⟨by decide,
    claim_C5_rowid_alias.1 "id integer primary key" ⟨"integer", "id", true⟩
      (by decide),
    claim_C5_rowid_alias.2 ⟨exTable, [⟨"integer", "id", true⟩], []⟩
      ⟨5, [RecordValue.null]⟩ ⟨"integer", "id", true⟩ (by decide) (by decide)⟩

/-! ### The CLI command dispatch (src/src/main.rs) -/

/-- The branch `run` (src/src/main.rs:11-38) takes for a command
string. -/
inductive RunAction where
  | dbinfo
  | tables
  | countFrom (table : String)
  | unknown (cmd : String)
deriving DecidableEq

/-- `str::trim_start_matches`: repeatedly strip the pattern while it is a
prefix.  `fuel` bounds the iterations; the pattern here is non-empty, so
the string length is enough fuel. -/
def trimStartL (fuel : Nat) (s pat : List Char) : List Char :=
  match fuel with
  | 0 => s
  | fuel + 1 =>
    if !pat.isEmpty && pat.isPrefixOf s then
      trimStartL fuel (s.drop pat.length) pat
    else s

/-- `str::trim_start_matches` on strings. -/
def trimStartMatches (s pat : String) : String :=
  String.mk (trimStartL s.data.length s.data pat.data)

/-- The dispatch of `run` (src/src/main.rs:15-35): the exact commands
`.dbinfo` and `.tables`; a CASE-SENSITIVE `select count(*) from ` prefix
match, whose stripped remainder names the table whose rows are counted
(no SQL parsing); everything else is the `Unknown command` error, exit
code 1. -/
def runCmd (cmd : String) : RunAction :=
  if cmd = ".dbinfo" then .dbinfo
  else if cmd = ".tables" then .tables
  else if "select count(*) from ".data.isPrefixOf cmd.data then
    .countFrom (trimStartMatches cmd "select count(*) from ")
  else .unknown cmd

/-- The claim's trigger predicate: the command's lowercase form starts
with `select`. -/
def lowerSelectTrigger (cmd : String) : Bool :=
  "select".data.isPrefixOf (cmd.data.map Char.toLower)

/-- C9 counterexample: the claim says every command whose lowercase form
has prefix `select` is parsed and executed as a SELECT and only
non-select commands are rejected; but `run` rejects
`SELECT name FROM apples` (its prefix match is case-sensitive and
requires the literal text `select count(*) from `) with
`Unknown command`. -/
theorem claim_C9_counterexample :
    lowerSelectTrigger "SELECT name FROM apples" = true ∧
      runCmd "SELECT name FROM apples"
        = RunAction.unknown "SELECT name FROM apples" :=
  ⟨by decide, by decide⟩

/-- C9 (amended): `run` executes only three command shapes — `.dbinfo`,
`.tables`, and commands starting with the exact lowercase text
`select count(*) from `, which are answered by counting the named
table's rows without SQL parsing; every other command, including any
other SELECT, errors with `Unknown command: <text>` and exit code 1. -/
theorem claim_C9_dispatch (cmd : String) :
    ("select count(*) from ".data.isPrefixOf cmd.data = true →
        runCmd cmd = RunAction.countFrom
          (trimStartMatches cmd "select count(*) from ")) ∧
      (cmd ≠ ".dbinfo" → cmd ≠ ".tables" →
        "select count(*) from ".data.isPrefixOf cmd.data = false →
        runCmd cmd = RunAction.unknown cmd) := by
  constructor
  · intro hpre
    have h1 : cmd ≠ ".dbinfo" := by
      intro h; rw [h] at hpre; exact absurd hpre (by decide)
    have h2 : cmd ≠ ".tables" := by
      intro h; rw [h] at hpre; exact absurd hpre (by decide)
    unfold runCmd
    rw [if_neg h1, if_neg h2, if_pos hpre]
  · intro h1 h2 h3
    unfold runCmd
    rw [if_neg h1, if_neg h2, if_neg (by simp [h3])]

theorem claim_C9_dispatch_witness :
    runCmd "select count(*) from apples" = RunAction.countFrom "apples" ∧
      runCmd "SELECT 1" = RunAction.unknown "SELECT 1" := by
  constructor
  · rw [(claim_C9_dispatch "select count(*) from apples").1 (by decide)]
    decide
  · exact (claim_C9_dispatch "SELECT 1").2 (by decide) (by decide) (by decide)

/-! ### Schema decoding (src/src/db/schema_table.rs, src/src/db/mod.rs) -/

/-- `struct Schema` (src/src/db/schema_table.rs:3-10). -/
structure SchemaM where
  type : String
  name : String
  tbl_name : String
  rootpage : Nat
  sql : String
deriving DecidableEq

/-- `str::parse::<u32>`: an optional leading `+`, then one or more ASCII
digits, value below `2 ^ 32`; anything else is a parse error. -/
def parseU32 (s : String) : Option Nat :=
  let ds := match s.data with
    | '+' :: rest => rest
    | l => l
  if ds.isEmpty then none
  else if ds.all Char.isDigit then
    if ds.foldl (fun a c => a * 10 + (c.toNat - 48)) 0 < 2 ^ 32 then
      some (ds.foldl (fun a c => a * 10 + (c.toNat - 48)) 0)
    else none
  else none

/-- `Schema::try_from` (src/src/db/schema_table.rs:12-51): pull columns
0-4 of a table-leaf cell, `Display`-render each, and parse column 3 as a
page number; a missing column or a failed parse is a typed error,
modelled as `none` (the source first asserts the cell is a table leaf;
the model's cells already are). -/
def schemaNew (cell : LeafCell) : Option SchemaM :=
  match cell.column 0, cell.column 1, cell.column 2,
      cell.column 3, cell.column 4 with
  | some c0, some c1, some c2, some c3, some c4 =>
    match parseU32 (rvToString c3) with
    | some rp =>
      some { type := rvToString c0, name := rvToString c1,
             tbl_name := rvToString c2, rootpage := rp, sql := rvToString c4 }
    | none => none
  | _, _, _, _, _ => none

/-- `Db::schemas` (src/src/db/mod.rs:70-76): decode every page-1 cell and
silently drop the failures — `filter_map(|cell| Schema::new(cell).ok())`
turns each error into an omission. -/
def dbSchemas (cells : List LeafCell) : List SchemaM :=
  cells.filterMap schemaNew

/-- `Db::table_names` (src/src/db/mod.rs:57-63): the `tbl_name` of every
surviving schema, in cell order. -/
def table_names (cells : List LeafCell) : List String :=
  (dbSchemas cells).map (fun s => s.tbl_name)

/-- C10: a page-1 cell whose schema row fails to decode (missing column
among positions 0-4, or a rootpage that does not parse as a page number)
is silently dropped by `Db::schemas`: `table_names` omits exactly that
entry and the schema list used for table resolution is the one without
it; no schema-decoding error is surfaced (the result type of these
operations carries none). -/
theorem claim_C10_bad_schema_dropped (a b : List LeafCell) (cell : LeafCell)
    (h : schemaNew cell = none) :
    table_names (a ++ cell :: b) = table_names (a ++ b) ∧
      dbSchemas (a ++ cell :: b) = dbSchemas (a ++ b) := by
  have hdb : dbSchemas (a ++ cell :: b) = dbSchemas (a ++ b) := by
    unfold dbSchemas
    rw [List.filterMap_append, List.filterMap_append, List.filterMap_cons, h]
  exact ⟨by unfold table_names; rw [hdb], hdb⟩

/-- A page-1 cell that decodes to the schema row of table `apples`. -/
def goodSchemaCell : LeafCell :=
  ⟨1, [RecordValue.text "table", RecordValue.text "apples",
    RecordValue.text "apples", RecordValue.int 2,
    RecordValue.text "CREATE TABLE apples (id integer primary key, val text)"]⟩

/-- A page-1 cell whose rootpage column is `Null`, so its rendered text
`NULL` fails to parse as a page number. -/
def badSchemaCell : LeafCell :=
  ⟨2, [RecordValue.text "table", RecordValue.text "broken",
    RecordValue.text "broken", RecordValue.null, RecordValue.text "CREATE"]⟩

theorem claim_C10_bad_schema_dropped_witness :
    table_names ([goodSchemaCell] ++ badSchemaCell :: [])
        = table_names ([goodSchemaCell] ++ []) ∧
      table_names ([goodSchemaCell] ++ []) = ["apples"] :=
  ⟨(claim_C10_bad_schema_dropped [goodSchemaCell] [] badSchemaCell (by decide)).1,
    by decide⟩

/-! ### Index search (src/src/db/table.rs:226-253, spec §4.D) -/

mutual
/-- In-order entries of an index B-tree: an interior cell's own entry sits
between its left subtree and the following cells — index interior cells
hold real entries, not mere separators (spec §4.D, §9). -/
def entriesT : IndexBtree → List IdxEntry
  | .leaf es => es
  | .interior cells => entriesC cells
/-- In-order entries under an interior cell array. -/
def entriesC : IBCells → List IdxEntry
  | .last rm => entriesT rm
  | .cons c e rest => entriesT c ++ e :: entriesC rest
end

/-- Lexicographic strict order on character lists, by code point — the
order `&str` comparison realises (UTF-8 byte order equals code-point
order). -/
def strLtL : List Char → List Char → Bool
  | [], [] => false
  | [], _ :: _ => true
  | _ :: _, [] => false
  | a :: as, b :: bs =>
    if a.toNat < b.toNat then true
    else if b.toNat < a.toNat then false
    else strLtL as bs

/-- `str` `<` comparison (`PartialOrd` on `&str`), kernel-computable. -/
def strLtB (s1 s2 : String) : Bool :=
  strLtL s1.data s2.data

theorem strLtL_irrefl : ∀ l : List Char, strLtL l l = false := by
  intro l
  induction l with
  | nil => rfl
  | cons a as ih => simp [strLtL, ih]

theorem strLtL_trans : ∀ l1 l2 l3 : List Char,
    strLtL l1 l2 = true → strLtL l2 l3 = true → strLtL l1 l3 = true := by
  intro l1
  induction l1 with
  | nil =>
    intro l2 l3 h12 h23
    cases l2 with
    | nil => exact absurd h12 (by simp [strLtL])
    | cons b bs =>
      cases l3 with
      | nil => exact absurd h23 (by simp [strLtL])
      | cons c cs => rfl
  | cons a as ih =>
    intro l2 l3 h12 h23
    cases l2 with
    | nil => exact absurd h12 (by simp [strLtL])
    | cons b bs =>
      cases l3 with
      | nil => exact absurd h23 (by simp [strLtL])
      | cons c cs =>
        rw [strLtL] at h12 h23 ⊢
        by_cases hab : a.toNat < b.toNat
        · by_cases hbc : b.toNat < c.toNat
          · rw [if_pos (by omega)]
          · rw [if_pos hab] at h12
            rw [if_neg hbc] at h23
            by_cases hcb : c.toNat < b.toNat
            · rw [if_pos hcb] at h23
              exact absurd h23 (by simp)
            · rw [if_pos (by omega)]
        · rw [if_neg hab] at h12
          by_cases hba : b.toNat < a.toNat
          · rw [if_pos hba] at h12
            exact absurd h12 (by simp)
          · rw [if_neg hba] at h12
            by_cases hbc : b.toNat < c.toNat
            · rw [if_pos (by omega)]
            · rw [if_neg hbc] at h23
              by_cases hcb : c.toNat < b.toNat
              · rw [if_pos hcb] at h23
                exact absurd h23 (by simp)
              · rw [if_neg hcb] at h23
                rw [if_neg (by omega), if_neg (by omega)]
                exact ih bs cs h12 h23

theorem strLtB_irrefl (s : String) : strLtB s s = false :=
  strLtL_irrefl s.data

theorem strLtB_trans {a b c : String} (h1 : strLtB a b = true)
    (h2 : strLtB b c = true) : strLtB a c = true :=
  strLtL_trans a.data b.data c.data h1 h2

theorem strLtB_ne {a b : String} (h : strLtB a b = true) : a ≠ b := by
  intro he
  rw [he, strLtB_irrefl] at h
  exact Bool.noConfusion h

/-- Strict lexicographic order on `(key, rowid)` pairs — the index
B-tree's entry order (spec §4.D: "lexicographically by key, rowid as
tiebreaker"). -/
def entryLt (e1 e2 : IdxEntry) : Prop :=
  strLtB e1.key e2.key = true ∨ (e1.key = e2.key ∧ e1.rid < e2.rid)

instance (e1 e2 : IdxEntry) : Decidable (entryLt e1 e2) :=
  inferInstanceAs
    (Decidable (strLtB e1.key e2.key = true ∨ (e1.key = e2.key ∧ e1.rid < e2.rid)))

instance : IsTrans IdxEntry entryLt where
  trans a b c hab hbc := by
    unfold entryLt at hab hbc ⊢
    rcases hab with h1 | ⟨h1, h1'⟩ <;> rcases hbc with h2 | ⟨h2, h2'⟩
    · exact Or.inl (strLtB_trans h1 h2)
    · exact Or.inl (h2 ▸ h1)
    · exact Or.inl (h1 ▸ h2)
    · exact Or.inr ⟨h1.trans h2, lt_trans h1' h2'⟩

/-- The descent guard of the interior-index walk: the cell's entry is
lexicographically past `(key, last)` — `key < e.key`, or an equal key
with a rowid strictly beyond `last`. -/
def entryPast (e : IdxEntry) (key : String) (last : Nat) : Bool :=
  strLtB key e.key || (e.key == key && decide (last < e.rid))

/-- The leaf-match predicate of the index search (spec §4.D): the payload
key equals the searched key AND the rowid is strictly greater than
`last_seen_rowid`. -/
def idxMatch (key : String) (last : Nat) (e : IdxEntry) : Bool :=
  e.key == key && decide (last < e.rid)

mutual
/-- Modelled from the spec: the buffer-based `Page::btree_search` called
by `IndexRows::next` (src/src/db/table.rs:231-241) is not among the
provided sources; spec §4.D defines it.  On a leaf-index page, return the
first cell whose key equals the searched key with rowid strictly greater
than `last_seen_rowid`, or fall back to the pending interior match.  On
an interior page, walk the cells for the first one past `(key, last)` in
entry order (the spec's "key compares ≥ key" with its "rowid as
tiebreaker"), descend into its left child remembering that cell's rowid
as the interior match when its key equals the searched key (§9: "an
interior cell still names a matching rowid"); with no such cell, descend
into the right-most child with no interior match.  Crucially, the
`while let BtreeIndexSearch::PointerOrRowId(p, rowid) = search` loop of
`IndexRows::next` OVERWRITES `rowid_in_iterior` at every interior level
(src/src/db/table.rs:235), so an interior step ignores any fallback
inherited from the level above — hence the `fb` argument is dropped in
the interior case. -/
def btreeSearch : IndexBtree → Nat → String → Option Nat → Option Nat
  | .leaf es, last, key, fb =>
    match es.find? (idxMatch key last) with
    | some e => some e.rid
    | none => fb
  | .interior cells, last, key, _fb => btreeSearchC cells last key
/-- The interior-page cell walk of `btree_search` (spec §4.D). -/
def btreeSearchC : IBCells → Nat → String → Option Nat
  | .last rm, last, key => btreeSearch rm last key none
  | .cons c e rest, last, key =>
    if entryPast e key last then
      btreeSearch c last key (if e.key == key then some e.rid else none)
    else btreeSearchC rest last key
end

/-- One step of `IndexRows::next` (src/src/db/table.rs:229-252): descend
from the index root with the running `last_rowid` (initially
`RowId::MIN = 0`), the interior-match fallback starting as `None`. -/
def indexRowsNext (root : IndexBtree) (key : String) (last : Nat) : Option Nat :=
  btreeSearch root last key none

/-- The index iterator unrolled: each yielded rowid becomes the next
`last_rowid`.  `fuel` bounds the number of yields. -/
def indexIterGo (root : IndexBtree) (key : String) (last fuel : Nat) : List Nat :=
  match fuel with
  | 0 => []
  | fuel + 1 =>
    match indexRowsNext root key last with
    | some rid => rid :: indexIterGo root key rid fuel
    | none => []

/-- `TableSearch::Index` iteration (src/src/db/table.rs:173-180): each
index-yielded rowid is point-looked-up with `get_row`; a rowid absent
from the table makes `and_then` yield `None`, stopping the consumer. -/
def indexSearchGo (tbl : TableM) (idx : IndexBtree) (key : String)
    (last fuel : Nat) : List LeafCell :=
  match fuel with
  | 0 => []
  | fuel + 1 =>
    match indexRowsNext idx key last with
    | some rid =>
      match get_row tbl.root rid with
      | some row => row :: indexSearchGo tbl idx key rid fuel
      | none => []
    | none => []

/-- `Table::index_search` (src/src/db/table.rs:53-60) iterated to
exhaustion; one matching entry per yield, so the entry count is enough
fuel. -/
def indexSearch (tbl : TableM) (idx : IndexBtree) (key : String) :
    List LeafCell :=
  indexSearchGo tbl idx key 0 (entriesT idx).length

/-- `TableIndex::get_key` (src/src/db/table.rs:344-350): when the index's
column list equals the conditions' column list (in order), the key is
the first condition's value. -/
def getKey (idx : TableIndexM) (conds : List CondEq) :
    Option (TableIndexM × String) :=
  if idx.columns = conds.map (fun c => c.col) then
    (conds.map (fun c => c.value)).head?.map (fun v => (idx, v))
  else none

/-- `Table::use_index` (src/src/db/table.rs:82-84): the first index whose
columns match the conditions. -/
def use_index (tbl : TableM) (conds : List CondEq) :
    Option (TableIndexM × String) :=
  tbl.indexes.findSome? (fun idx => getKey idx conds)

/-- `Table::search_rows` (src/src/db/table.rs:33-38): index search when
some index matches the conditions, else the full (unfiltered) scan. -/
def search_rows (tbl : TableM) (conds : List CondEq) : List LeafCell :=
  match use_index tbl conds with
  | some (idx, key) => indexSearch tbl idx.root key
  | none => tableScan tbl.root

/-- Strictly increasing test on an entry list (the index analogue of
`chainLt`). -/
def chainLtE : List IdxEntry → Bool
  | [] => true
  | [_] => true
  | a :: b :: rest => decide (entryLt a b) && chainLtE (b :: rest)

/-- Well-formed index B-tree (spec §3, §4.D): in-order entries strictly
increase in `(key, rowid)` order and every rowid is at least 1. -/
def WFindex (t : IndexBtree) : Bool :=
  chainLtE (entriesT t) && (entriesT t).all (fun e => decide (1 ≤ e.rid))

/-- Every child of the cell array is a leaf page. -/
def cellsChildrenLeaves : IBCells → Bool
  | .last (.leaf _) => true
  | .last (.interior _) => false
  | .cons (.leaf _) _ rest => cellsChildrenLeaves rest
  | .cons (.interior _) _ _ => false

/-- The index B-tree has depth at most 2: a leaf root, or an interior
root whose children are all leaves. -/
def depthLe2 : IndexBtree → Bool
  | .leaf _ => true
  | .interior cells => cellsChildrenLeaves cells

/-- The index entry a table row induces on column `col`: its projected
value must be text (only text compares against a string literal, spec
§4.C), paired with the row's rowid. -/
def rowEntry (tbl : TableM) (col : String) (c : LeafCell) : Option IdxEntry :=
  match rowCol tbl c col with
  | .ok (.text s) => some ⟨s, c.rowid⟩
  | _ => none

theorem entryPast_iff (e : IdxEntry) (key : String) (last : Nat) :
    entryPast e key last = true
      ↔ strLtB key e.key = true ∨ (e.key = key ∧ last < e.rid) := by
  unfold entryPast
  simp

theorem idxMatch_iff (key : String) (last : Nat) (e : IdxEntry) :
    idxMatch key last e = true ↔ e.key = key ∧ last < e.rid := by
  unfold idxMatch
  simp

theorem chainLtE_iff (l : List IdxEntry) :
    chainLtE l = true ↔ List.Chain' entryLt l := by
  induction l with
  | nil => simp [chainLtE]
  | cons a rest ih =>
    cases rest with
    | nil => simp [chainLtE]
    | cons b rest' =>
      simp [chainLtE, List.chain'_cons] at ih ⊢
      tauto

theorem descendC2_eq : ∀ (cells : IBCells) (key : String) (last : Nat),
    List.Pairwise entryLt (entriesC cells) →
    cellsChildrenLeaves cells = true →
    btreeSearchC cells last key
      = ((entriesC cells).find? (idxMatch key last)).map (fun e => e.rid)
  | .last rm, key, last, hp, hd => by
    cases rm with
    | interior c => simp [cellsChildrenLeaves] at hd
    | leaf es =>
      rw [btreeSearchC, btreeSearch, entriesC, entriesT]
      cases h : es.find? (idxMatch key last) <;> simp [h]
  | .cons c e rest, key, last, hp, hd => by
    cases c with
    | interior cc => simp [cellsChildrenLeaves] at hd
    | leaf es =>
      rw [cellsChildrenLeaves] at hd
      rw [entriesC, entriesT] at hp ⊢
      obtain ⟨hpes, hpe_rest, hcross⟩ := List.pairwise_append.1 hp
      rw [btreeSearchC, List.find?_append]
      by_cases hpast : entryPast e key last = true
      · rw [if_pos hpast]
        rw [btreeSearch]
        cases hfind : es.find? (idxMatch key last) with
        | some x => simp [hfind]
        | none =>
          rw [Option.none_or]
          rcases (entryPast_iff e key last).1 hpast with hklt | ⟨hke, hlt⟩
          · -- key < e.key: the cell key is past the searched key, no match
            have hke : e.key ≠ key := (strLtB_ne hklt).symm
            have hpm : idxMatch key last e = false := by
              simp [idxMatch, hke]
            rw [List.find?_cons_of_neg _ (by simp [hpm])]
            have hnone : (entriesC rest).find? (idxMatch key last) = none := by
              rw [List.find?_eq_none]
              intro y hy
              have hey : entryLt e y := (List.pairwise_cons.1 hpe_rest).1 y hy
              have hky : strLtB key y.key = true := by
                rcases hey with h | ⟨h, _⟩
                · exact strLtB_trans hklt h
                · exact h ▸ hklt
              simp [idxMatch]
              intro hk'
              exact absurd hk'.symm (strLtB_ne hky)
            rw [hnone]
            simp [hke]
          · -- e.key = key and last < e.rid: the interior entry itself matches
            have hpm : idxMatch key last e = true := by
              simp [idxMatch, hke, hlt]
            rw [List.find?_cons_of_pos _ hpm]
            simp [hke]
      · rw [if_neg hpast]
        have hnp : ¬(strLtB key e.key = true ∨ (e.key = key ∧ last < e.rid)) :=
          fun h => hpast ((entryPast_iff e key last).2 h)
        push_neg at hnp
        obtain ⟨hle, himp⟩ := hnp
        have hes : es.find? (idxMatch key last) = none := by
          rw [List.find?_eq_none]
          intro x hx
          have hxe : entryLt x e := hcross x hx e (List.mem_cons_self _ _)
          intro hxm
          obtain ⟨hxk, hxr⟩ := (idxMatch_iff key last x).1 hxm
          rcases hxe with h | ⟨h, hr⟩
          · exact absurd (hxk ▸ h) hle
          · have hek : e.key = key := h ▸ hxk
            have := himp hek
            omega
        have hpm : idxMatch key last e = false := by
          by_cases hek : e.key = key
          · have := himp hek
            simp [idxMatch, hek]
            omega
          · simp [idxMatch, hek]
        rw [hes, Option.none_or, List.find?_cons_of_neg _ (by simp [hpm])]
        exact descendC2_eq rest key last (List.pairwise_cons.1 hpe_rest).2 hd

theorem descend2_eq (root : IndexBtree) (key : String) (last : Nat)
    (hp : List.Pairwise entryLt (entriesT root)) (hd : depthLe2 root = true) :
    indexRowsNext root key last
      = ((entriesT root).find? (idxMatch key last)).map (fun e => e.rid) := by
  cases root with
  | leaf es =>
    rw [indexRowsNext, btreeSearch, entriesT]
    cases h : es.find? (idxMatch key last) <;> simp [h]
  | interior cells =>
    rw [indexRowsNext, btreeSearch, entriesT]
    exact descendC2_eq cells key last (by rwa [entriesT] at hp)
      (by rwa [depthLe2] at hd)

theorem idx_filter_succ {E : List IdxEntry} {key : String} {last : Nat}
    {c : IdxEntry} {cs : List IdxEntry}
    (hp : List.Pairwise entryLt E)
    (hf : E.filter (idxMatch key last) = c :: cs) :
    E.filter (idxMatch key c.rid) = cs := by
  induction E generalizing cs with
  | nil => simp at hf
  | cons x xs ih =>
    obtain ⟨hx_rest, hpxs⟩ := List.pairwise_cons.1 hp
    by_cases hpx : idxMatch key last x = true
    · rw [List.filter_cons_of_pos hpx] at hf
      obtain ⟨rfl, hcs⟩ := List.cons_eq_cons.1 hf
      obtain ⟨hxk, hxr⟩ := (idxMatch_iff key last x).1 hpx
      rw [List.filter_cons_of_neg (by simp [idxMatch])]
      rw [← hcs]
      apply List.filter_congr
      intro y hy
      have hlt := hx_rest y hy
      by_cases hyk : y.key = key
      · rcases hlt with h | ⟨_, hr⟩
        · rw [hxk, hyk, strLtB_irrefl] at h
          exact Bool.noConfusion h
        · have h1 : idxMatch key x.rid y = true := by
            simp [idxMatch, hyk]
            exact hr
          have h2 : idxMatch key last y = true := by
            simp [idxMatch, hyk]
            omega
          rw [h1, h2]
      · have hb : (y.key == key) = false := by simp [hyk]
        simp [idxMatch, hb]
    · rw [List.filter_cons_of_neg hpx] at hf
      have hc_mem : c ∈ xs.filter (idxMatch key last) := by
        rw [hf]; exact List.mem_cons_self c cs
      obtain ⟨hck, hcr⟩ := (idxMatch_iff key last c).1 (List.mem_filter.1 hc_mem).2
      have hxneg : idxMatch key c.rid x = false := by
        by_cases hxk : x.key = key
        · have hnx : ¬(x.key = key ∧ last < x.rid) :=
            fun h => hpx ((idxMatch_iff key last x).2 h)
          have : x.rid ≤ last := by
            by_contra hcon
            exact hnx ⟨hxk, by omega⟩
          simp [idxMatch, hxk]
          omega
        · simp [idxMatch, hxk]
      rw [List.filter_cons_of_neg (by simp [hxneg])]
      exact ih hpxs hf

theorem indexIterGo_eq (root : IndexBtree) (key : String)
    (hp : List.Pairwise entryLt (entriesT root)) (hd : depthLe2 root = true) :
    ∀ (fuel last : Nat),
      ((entriesT root).filter (idxMatch key last)).length ≤ fuel →
      indexIterGo root key last fuel
        = ((entriesT root).filter (idxMatch key last)).map (fun e => e.rid) := by
  intro fuel
  induction fuel with
  | zero =>
    intro last hle
    have h0 : (entriesT root).filter (idxMatch key last) = [] :=
      List.length_eq_zero.1 (Nat.le_zero.1 hle)
    rw [h0]
    rfl
  | succ n ih =>
    intro last hle
    rw [indexIterGo, descend2_eq root key last hp hd, find?_eq_head?_filter]
    cases hfl : (entriesT root).filter (idxMatch key last) with
    | nil => rfl
    | cons c cs =>
      have hsucc := idx_filter_succ hp hfl
      have hlen : cs.length ≤ n := by
        rw [hfl] at hle; simpa using hle
      show c.rid :: indexIterGo root key c.rid n = (c :: cs).map (fun e => e.rid)
      rw [List.map_cons, ih c.rid (by rw [hsucc]; exact hlen), hsucc]

theorem indexSearchGo_rowids (tbl : TableM) (idx : IndexBtree) (key : String)
    (hok : ∀ last rid, indexRowsNext idx key last = some rid →
      ∃ row, get_row tbl.root rid = some row) :
    ∀ (fuel last : Nat),
      (indexSearchGo tbl idx key last fuel).map LeafCell.rowid
        = indexIterGo idx key last fuel := by
  intro fuel
  induction fuel with
  | zero => intro last; rfl
  | succ n ih =>
    intro last
    rw [indexSearchGo, indexIterGo]
    cases hnx : indexRowsNext idx key last with
    | none => rfl
    | some rid =>
      obtain ⟨row, hrow⟩ := hok last rid hnx
      show (match get_row tbl.root rid with
          | some row => row :: indexSearchGo tbl idx key rid n
          | none => []).map LeafCell.rowid
        = rid :: indexIterGo idx key rid n
      rw [hrow]
      show row.rowid :: (indexSearchGo tbl idx key rid n).map LeafCell.rowid
        = rid :: indexIterGo idx key rid n
      rw [get_row_rowid hrow, ih rid]

theorem nat_sorted_mem_eq : ∀ {l1 l2 : List Nat},
    List.Chain' (· < ·) l1 → List.Chain' (· < ·) l2 →
    (∀ x, x ∈ l1 ↔ x ∈ l2) → l1 = l2 := by
  intro l1
  induction l1 with
  | nil =>
    intro l2 _ _ hm
    cases l2 with
    | nil => rfl
    | cons b t2 => exact absurd ((hm b).2 (List.mem_cons_self b t2)) (by simp)
  | cons a t1 ih =>
    intro l2 h1 h2 hm
    cases l2 with
    | nil => exact absurd ((hm a).1 (List.mem_cons_self a t1)) (by simp)
    | cons b t2 =>
      have hp1 := List.chain'_iff_pairwise.1 h1
      have hp2 := List.chain'_iff_pairwise.1 h2
      have hab : a = b := by
        have hain : a ∈ b :: t2 := (hm a).1 (List.mem_cons_self a t1)
        have hbin : b ∈ a :: t1 := (hm b).2 (List.mem_cons_self b t2)
        rcases List.mem_cons.1 hain with h | h
        · exact h
        · rcases List.mem_cons.1 hbin with h' | h'
          · exact h'.symm
          · have hba : b < a := (List.pairwise_cons.1 hp2).1 a h
            have hab : a < b := (List.pairwise_cons.1 hp1).1 b h'
            omega
      subst hab
      have hm' : ∀ x, x ∈ t1 ↔ x ∈ t2 := by
        intro x
        constructor
        · intro hx
          have hlt : a < x := (List.pairwise_cons.1 hp1).1 x hx
          rcases List.mem_cons.1 ((hm x).1 (List.mem_cons_of_mem a hx)) with h | h
          · omega
          · exact h
        · intro hx
          have hlt : a < x := (List.pairwise_cons.1 hp2).1 x hx
          rcases List.mem_cons.1 ((hm x).2 (List.mem_cons_of_mem a hx)) with h | h
          · omega
          · exact h
      rw [ih h1.tail h2.tail hm']
      rfl

theorem rowEntry_rid {tbl : TableM} {col : String} {c : LeafCell} {e : IdxEntry}
    (h : rowEntry tbl col c = some e) : e.rid = c.rowid := by
  unfold rowEntry at h
  cases hrc : rowCol tbl c col with
  | error msg => rw [hrc] at h; exact Option.noConfusion h
  | ok val =>
    rw [hrc] at h
    cases val with
    | text s =>
      obtain rfl := Option.some.inj h
      rfl
    | primaryKey r => exact Option.noConfusion h
    | null => exact Option.noConfusion h
    | int n => exact Option.noConfusion h
    | floatBits b => exact Option.noConfusion h
    | blob b => exact Option.noConfusion h

theorem condsSatisfy_iff_rowEntry (tbl : TableM) (col v : String) (c : LeafCell) :
    condsSatisfy tbl [⟨col, v⟩] c = true
      ↔ rowEntry tbl col c = some ⟨v, c.rowid⟩ := by
  unfold condsSatisfy rowEntry
  simp only [List.all_cons, List.all_nil, Bool.and_true]
  cases hrc : rowCol tbl c col with
  | error msg => simp
  | ok val =>
    cases val with
    | text s => simp [rvEqStr]
    | primaryKey r => simp [rvEqStr]
    | null => simp [rvEqStr]
    | int n => simp [rvEqStr]
    | floatBits b => simp [rvEqStr]
    | blob b => simp [rvEqStr]

/-- C1 (amended): for a well-formed database with a single-column index
on a text-valued column `col` — in-order index entries strictly sorted in
`(key, rowid)` order with rowids at least 1, entries in bijection with
the table's rows — whose index B-tree has depth at most 2 (a leaf root,
or an interior root over leaves), `search_rows` with the equality
predicate `col = v` selects the index and yields exactly the rowids of
the predicate-filtered full scan, in ascending rowid order.  For deeper
index trees the original claim fails: the
`while let … PointerOrRowId(p, rowid)` loop of `IndexRows::next`
overwrites its interior-match fallback at every level, so a match
retained from an upper interior page is forgotten once a lower interior
page reports none, and the iteration stops early (see the
counterexample). -/
theorem claim_C1_index_probe (tbl : TableM) (idxm : TableIndexM) (col v : String)
    (hfind : use_index tbl [⟨col, v⟩] = some (idxm, v))
    (hwfT : WFtable tbl.root = true)
    (hwfI : WFindex idxm.root = true)
    (hd : depthLe2 idxm.root = true)
    (hcorr : (entriesT idxm.root).Perm
      ((leafCellsT tbl.root).filterMap (rowEntry tbl col)))
    (_hall : (leafCellsT tbl.root).all
      (fun c => (rowEntry tbl col c).isSome) = true) :
    (search_rows tbl [⟨col, v⟩]).map LeafCell.rowid
      = ((tableScan tbl.root).filter (condsSatisfy tbl [⟨col, v⟩])).map
          LeafCell.rowid ∧
      List.Chain' (· < ·) ((search_rows tbl [⟨col, v⟩]).map LeafCell.rowid) := by
  -- unpack the well-formedness facts
  have hwfT' := hwfT
  rw [WFtable, Bool.and_eq_true, Bool.and_eq_true, chainLt_iff_chain'] at hwfT'
  obtain ⟨⟨hchT, hge1T⟩, hkeysT⟩ := hwfT'
  rw [WFindex, Bool.and_eq_true, chainLtE_iff] at hwfI
  obtain ⟨hchE, hge1E⟩ := hwfI
  have hpE : List.Pairwise entryLt (entriesT idxm.root) :=
    List.chain'_iff_pairwise.1 hchE
  have hge1E' : ∀ e ∈ entriesT idxm.root, 1 ≤ e.rid := by
    intro e he
    have := (List.all_eq_true.1 hge1E) e he
    simpa using this
  have hge1T' : ∀ c ∈ leafCellsT tbl.root, 1 ≤ c.rowid := by
    intro c hc
    have := (List.all_eq_true.1 hge1T) c.rowid (List.mem_map_of_mem _ hc)
    simpa using this
  -- entry membership in terms of rows
  have hmemE : ∀ e, e ∈ entriesT idxm.root
      ↔ ∃ c ∈ leafCellsT tbl.root, rowEntry tbl col c = some e := by
    intro e
    rw [hcorr.mem_iff, List.mem_filterMap]
  -- the scan side
  have hscan := tableScan_eq tbl.root hwfT
  -- the index side reduces to the matching entries
  have hsr : search_rows tbl [⟨col, v⟩] = indexSearch tbl idxm.root v := by
    unfold search_rows
    rw [hfind]
  have hok : ∀ last rid, indexRowsNext idxm.root v last = some rid →
      ∃ row, get_row tbl.root rid = some row := by
    intro last rid hnx
    rw [descend2_eq idxm.root v last hpE hd] at hnx
    cases hfe : (entriesT idxm.root).find? (idxMatch v last) with
    | none => rw [hfe] at hnx; exact Option.noConfusion hnx
    | some e =>
      rw [hfe] at hnx
      obtain rfl := Option.some.inj hnx
      have hmem : e ∈ entriesT idxm.root := List.mem_of_find?_eq_some hfe
      obtain ⟨c, hcm, hre⟩ := (hmemE e).1 hmem
      refine ⟨c, ?_⟩
      show get_row tbl.root e.rid = some c
      rw [rowEntry_rid hre]
      exact get_row_of_mem tbl.root hchT hkeysT hcm
  have hiter : (indexSearchGo tbl idxm.root v 0 (entriesT idxm.root).length).map
      LeafCell.rowid
      = ((entriesT idxm.root).filter (idxMatch v 0)).map (fun e => e.rid) := by
    rw [indexSearchGo_rowids tbl idxm.root v hok]
    exact indexIterGo_eq idxm.root v hpE hd _ 0 (List.length_filter_le _ _)
  -- pairwise facts about the matching entries
  have hpM : List.Pairwise entryLt
      ((entriesT idxm.root).filter (idxMatch v 0)) :=
    hpE.sublist (List.filter_sublist _)
  have hMkeys : ∀ e ∈ (entriesT idxm.root).filter (idxMatch v 0), e.key = v := by
    intro e he
    exact ((idxMatch_iff v 0 e).1 (List.mem_filter.1 he).2).1
  have hchain1 : List.Chain' (· < ·)
      (((entriesT idxm.root).filter (idxMatch v 0)).map (fun e => e.rid)) := by
    rw [List.chain'_iff_pairwise, List.pairwise_map]
    refine List.Pairwise.imp_of_mem ?_ hpM
    intro a b ha hb hab
    rcases hab with h | ⟨_, h⟩
    · rw [hMkeys a ha, hMkeys b hb, strLtB_irrefl] at h
      exact Bool.noConfusion h
    · exact h
  have hchain2 : List.Chain' (· < ·)
      (((leafCellsT tbl.root).filter (condsSatisfy tbl [⟨col, v⟩])).map
        LeafCell.rowid) := by
    rw [List.chain'_iff_pairwise] at hchT ⊢
    rw [List.pairwise_map]
    rw [rowidsT, List.pairwise_map] at hchT
    exact hchT.sublist (List.filter_sublist _)
  -- the two rowid lists have the same members
  have hmem : ∀ x,
      x ∈ ((entriesT idxm.root).filter (idxMatch v 0)).map (fun e => e.rid)
        ↔ x ∈ ((leafCellsT tbl.root).filter
            (condsSatisfy tbl [⟨col, v⟩])).map LeafCell.rowid := by
    intro x
    simp only [List.mem_map, List.mem_filter]
    constructor
    · rintro ⟨e, ⟨heE, heM⟩, rfl⟩
      obtain ⟨hek, _⟩ := (idxMatch_iff v 0 e).1 heM
      obtain ⟨c, hcm, hre⟩ := (hmemE e).1 heE
      refine ⟨c, ⟨hcm, ?_⟩, (rowEntry_rid hre).symm⟩
      rw [condsSatisfy_iff_rowEntry, hre]
      obtain ⟨ek, er⟩ := e
      simp only at hek
      rw [hek]
      have : er = c.rowid := rowEntry_rid hre
      rw [this]
    · rintro ⟨c, ⟨hcm, hsat⟩, rfl⟩
      have hre := (condsSatisfy_iff_rowEntry tbl col v c).1 hsat
      refine ⟨⟨v, c.rowid⟩, ⟨?_, ?_⟩, rfl⟩
      · exact (hmemE ⟨v, c.rowid⟩).2 ⟨c, hcm, hre⟩
      · rw [idxMatch_iff]
        exact ⟨rfl, hge1T' c hcm⟩
  have hmain : (search_rows tbl [⟨col, v⟩]).map LeafCell.rowid
      = ((tableScan tbl.root).filter (condsSatisfy tbl [⟨col, v⟩])).map
          LeafCell.rowid := by
    rw [hsr, hscan]
    unfold indexSearch
    rw [hiter]
    exact nat_sorted_mem_eq hchain1 hchain2 hmem
  refine ⟨hmain, ?_⟩
  rw [hmain, hscan]
  exact hchain2

/-- A depth-2 index over a three-row table, for the witness. -/
def exIdx2 : IndexBtree :=
  .interior (.cons (.leaf [⟨"a", 1⟩]) ⟨"a", 3⟩ (.last (.leaf [⟨"b", 7⟩])))

/-- The table the witness index indexes: rows 1 and 3 hold `a`, row 7
holds `b` in column 0. -/
def exTable2 : TableBtree :=
  .leaf [⟨1, [RecordValue.text "a"]⟩, ⟨3, [RecordValue.text "a"]⟩,
    ⟨7, [RecordValue.text "b"]⟩]

/-- The witness database: table `exTable2` with the single text column
`c0` carrying index `exIdx2`. -/
def exTbl2 : TableM :=
  { root := exTable2
    columns := [⟨"text", "c0", false⟩]
    indexes := [⟨"i_c0", ["c0"], exIdx2⟩] }

theorem claim_C1_index_probe_witness :
    (search_rows exTbl2 [⟨"c0", "a"⟩]).map LeafCell.rowid
      = ((tableScan exTbl2.root).filter (condsSatisfy exTbl2 [⟨"c0", "a"⟩])).map
          LeafCell.rowid :=
  (claim_C1_index_probe exTbl2 ⟨"i_c0", ["c0"], exIdx2⟩ "c0" "a" rfl
    (by decide) (by decide) (by decide) (by decide) (by decide)).1

/-- A depth-3 index over a five-row table: the root's interior cell holds
the matching entry `(a, 9)`, the middle interior page's cell holds
`(a, 3)`. -/
def exIdx3 : IndexBtree :=
  .interior (.cons
    (.interior (.cons (.leaf [⟨"a", 1⟩]) ⟨"a", 3⟩ (.last (.leaf [⟨"a", 4⟩]))))
    ⟨"a", 9⟩
    (.last (.leaf [⟨"b", 12⟩])))

/-- The table `exIdx3` indexes: rows 1, 3, 4, 9 hold `a`, row 12 holds
`b`. -/
def exTable3 : TableBtree :=
  .leaf [⟨1, [RecordValue.text "a"]⟩, ⟨3, [RecordValue.text "a"]⟩,
    ⟨4, [RecordValue.text "a"]⟩, ⟨9, [RecordValue.text "a"]⟩,
    ⟨12, [RecordValue.text "b"]⟩]

/-- The counterexample database. -/
def exTbl3 : TableM :=
  { root := exTable3
    columns := [⟨"text", "c0", false⟩]
    indexes := [⟨"i3_c0", ["c0"], exIdx3⟩] }

/-- C1 counterexample: on this well-formed database (sorted index in
bijection with the rows, ascending rowids from 1), the index-probe path
for `c0 = 'a'` yields rowids `[1, 3, 4]` while the filtered full scan
yields `[1, 3, 4, 9]`: after yielding 4, the next descent finds the
match `(a, 9)` only in the ROOT's interior cell, the middle interior
page reports no match, and `IndexRows::next` has already overwritten the
root's fallback — so rowid 9 is lost and the row sets differ. -/
theorem claim_C1_counterexample :
    WFtable exTbl3.root = true ∧ WFindex exIdx3 = true ∧
      (entriesT exIdx3).Perm
        ((leafCellsT exTbl3.root).filterMap (rowEntry exTbl3 "c0")) ∧
      (search_rows exTbl3 [⟨"c0", "a"⟩]).map LeafCell.rowid = [1, 3, 4] ∧
      ((tableScan exTbl3.root).filter (condsSatisfy exTbl3 [⟨"c0", "a"⟩])).map
          LeafCell.rowid = [1, 3, 4, 9] ∧
      (9 : Nat) ∉ [1, 3, 4] :=
  ⟨by decide, by decide, by decide, by decide, by decide, by decide⟩

end CCS
